import Mathlib

/-
Verification of the SSTV codec signal chain (encoder and decoder).

The encoder (SSTVEncoder, with SSTV_MODES and addVISCode / addImageData /
addScanLine / addScanLineYUV / addTone) is embedded in two layers:

* a computable rational layer of "pulse lists": every tone the encoder emits
  is recorded as a pair (frequency in Hz, duration in seconds), in emission
  order, exactly as the source schedules its addTone calls;
* a real-valued rendering layer (addTone / runPulses / generateSamples) that
  turns pulse lists into PCM samples with the continuous-phase accumulator of
  the source.

The decoder (SSTVDecoder: detectMode / decodeVIS / decodeScanLine /
decodeScanLineChroma / convertYUVtoRGB / detectFrequency /
detectFrequencyRange / goertzel) and the FM front end (FMDemodulator,
KaiserFIR) are embedded over the reals, with image rasters and chroma scratch
buffers as total functions from indices to byte values.

JS numeric literals are read as exact rationals, and JS number arithmetic is
idealised as real arithmetic.
-/

namespace SSTV

/-! ## Mode table (SSTV_MODES) -/

inductive ColorFormat
  | RGB
  | YUV
deriving DecidableEq

structure SSTVMode where
  visCode : ℕ
  scanTime : ℚ
  lines : ℕ
  width : ℕ
  syncPulse : ℚ
  syncPorch : ℚ
  separatorPulse : Option ℚ
  colorFormat : ColorFormat
deriving DecidableEq

/-- SSTV_MODES.ROBOT36: visCode 0x08, scanTime 0.15, 240 lines, width 320,
syncPulse 0.009, syncPorch 0.003, YUV. -/
def ROBOT36 : SSTVMode :=
  { visCode := 8, scanTime := 15/100, lines := 240, width := 320,
    syncPulse := 9/1000, syncPorch := 3/1000, separatorPulse := none,
    colorFormat := .YUV }

/-- SSTV_MODES.MARTIN1: visCode 0x2c, scanTime 0.146, 256 lines, width 320,
syncPulse 0.004862, syncPorch 0.000572, separatorPulse 0.000572, RGB. -/
def MARTIN1 : SSTVMode :=
  { visCode := 44, scanTime := 146/1000, lines := 256, width := 320,
    syncPulse := 4862/1000000, syncPorch := 572/1000000,
    separatorPulse := some (572/1000000), colorFormat := .RGB }

/-- SSTV_MODES.SCOTTIE1: visCode 0x3c, scanTime 0.138, 256 lines, width 320,
syncPulse 0.009, syncPorch 0.0015, separatorPulse 0.0015, RGB. -/
def SCOTTIE1 : SSTVMode :=
  { visCode := 60, scanTime := 138/1000, lines := 256, width := 320,
    syncPulse := 9/1000, syncPorch := 15/10000,
    separatorPulse := some (15/10000), colorFormat := .RGB }

/-- The mode table, in Object.entries order. -/
def supportedModes : List SSTVMode := [ROBOT36, MARTIN1, SCOTTIE1]

/-! ## Encoder pulse lists

A pulse is a pair (frequency in Hz, duration in seconds); the encoder source
emits pulses strictly in order through addTone, so each encoder routine is
embedded as the pulse list it schedules. -/

/-- Frequency of a VIS bit: 1100 Hz for a set bit, 1300 Hz for a clear bit
(FREQ_VIS_BIT1 / FREQ_VIS_BIT0). The source tests JS truthiness of the bit. -/
def visBitFreq (bit : ℕ) : ℚ := if bit ≠ 0 then 1100 else 1300

/-- One iteration of the VIS data-bit loop in addVISCode: extract bit i of the
code, fold it into the running parity, and append its 30 ms tone. -/
def visDataStep (vis : ℕ) (st : ℕ × List (ℚ × ℚ)) (i : ℕ) : ℕ × List (ℚ × ℚ) :=
  let bit := (vis >>> i) &&& 1
  (st.1 ^^^ bit, st.2 ++ [(visBitFreq bit, 3/100)])

/-- addVISCode: leader 300 ms at 1900 Hz, break 10 ms at 1200 Hz, start bit
30 ms at 1900 Hz, seven data bits LSB-first at 30 ms each, the parity tone,
and the stop bit 30 ms at 1200 Hz. -/
def visPulses (vis : ℕ) : List (ℚ × ℚ) :=
  let dp := (List.range 7).foldl (visDataStep vis) (0, [])
  ([(1900, 3/10), (1200, 1/100), (1900, 3/100)] : List (ℚ × ℚ)) ++ dp.2
    ++ [(visBitFreq dp.1, 3/100), (1200, 3/100)]

/-- XOR of the seven LSB-first data bits of a VIS code. -/
def visParity (vis : ℕ) : ℕ :=
  (List.range 7).foldl (fun p i => p ^^^ ((vis >>> i) &&& 1)) 0

/-- The VIS framing exactly as the claim words it: leader, break, start, seven
LSB-first data bits, a parity tone equal to the XOR of the data bits, stop. -/
def visFramingSpec (vis : ℕ) : List (ℚ × ℚ) :=
  ([(1900, 3/10), (1200, 1/100), (1900, 3/100)] : List (ℚ × ℚ))
    ++ (List.range 7).map (fun i => (visBitFreq ((vis >>> i) &&& 1), 3/100))
    ++ [(visBitFreq (visParity vis), 3/100), (1200, 3/100)]

/-- Pixel-value to frequency map of addScanLine:
FREQ_BLACK + (value / 255) * (FREQ_WHITE - FREQ_BLACK). -/
def scanFreq (v : ℚ) : ℚ := 1500 + v / 255 * (2300 - 1500)

/-- addScanLine: one tone per pixel of the selected channel (R=0, G=1, B=2) of
row y, each lasting scanTime / width seconds. The raster is the RGBA byte
array of getImageData, embedded as a total index function. -/
def scanLinePulses (scanTime : ℚ) (data : ℕ → ℚ) (width y channel : ℕ) :
    List (ℚ × ℚ) :=
  (List.range width).map fun x =>
    (scanFreq (data ((y * width + x) * 4 + channel)), scanTime / width)

/-- The luma computed in addScanLineYUV: 0.299 r + 0.587 g + 0.114 b. -/
def lumaY (r g b : ℚ) : ℚ := 299/1000 * r + 587/1000 * g + 114/1000 * b

/-- The U (B-Y) component computed in addScanLineYUV: 0.492 (b - Y). -/
def uComp (r g b : ℚ) : ℚ := 492/1000 * (b - lumaY r g b)

/-- The V (R-Y) component computed in addScanLineYUV: 0.877 (r - Y). -/
def vComp (r g b : ℚ) : ℚ := 877/1000 * (r - lumaY r g b)

/-- Chrominance to frequency map of addScanLineYUV: shift by 156, scale by
312, clamp to the byte range, then the black-to-white frequency ramp. -/
def chromaFreq (c : ℚ) : ℚ :=
  let normalizedChroma := (c + 156) / 312 * 255
  let clampedChroma := max 0 (min 255 normalizedChroma)
  1500 + clampedChroma / 255 * (2300 - 1500)

/-- Y section of addScanLineYUV: one tone per pixel over 88 ms total. -/
def robotYPulses (data : ℕ → ℚ) (width y : ℕ) : List (ℚ × ℚ) :=
  (List.range width).map fun x =>
    let idx := (y * width + x) * 4
    (scanFreq (lumaY (data idx) (data (idx + 1)) (data (idx + 2))),
      (88/1000) / width)

/-- Separator frequency of addScanLineYUV: 1500 Hz on even lines (U follows),
2300 Hz on odd lines (V follows). -/
def robotSepFreq (y : ℕ) : ℚ := if y % 2 = 0 then 1500 else 2300

/-- Chrominance section of addScanLineYUV: the pixel loop steps x by 2, so it
runs ceil(width / 2) times; each step averages the RGB bytes of pixels x and
min(x+1, width-1), computes U on even lines and V on odd lines, and emits one
tone of duration 44 ms / (width / 2). -/
def robotChromaPulses (data : ℕ → ℚ) (width y : ℕ) : List (ℚ × ℚ) :=
  (List.range ((width + 1) / 2)).map fun k =>
    let x := 2 * k
    let idx1 := (y * width + x) * 4
    let idx2 := (y * width + min (x + 1) (width - 1)) * 4
    let r := (data idx1 + data idx2) / 2
    let g := (data (idx1 + 1) + data (idx2 + 1)) / 2
    let b := (data (idx1 + 2) + data (idx2 + 2)) / 2
    let chromaValue := if y % 2 = 0 then uComp r g b else vComp r g b
    (chromaFreq chromaValue, (44/1000) / ((width : ℚ) / 2))

/-- addScanLineYUV: the Y scan, a 4.5 ms separator, a 1.5 ms porch at
1500 Hz, then the half-resolution chrominance scan. -/
def robotLinePulses (data : ℕ → ℚ) (width y : ℕ) : List (ℚ × ℚ) :=
  robotYPulses data width y
    ++ [(robotSepFreq y, 45/10000), (1500, 15/10000)]
    ++ robotChromaPulses data width y

/-- The optional RGB separator pulse: emitted at FREQ_SYNC only when the mode
field is present and JS-truthy (nonzero). -/
def sepPulses (m : SSTVMode) : List (ℚ × ℚ) :=
  match m.separatorPulse with
  | some s => if s = 0 then [] else [(1200, s)]
  | none => []

/-- One line of addImageData: sync pulse at 1200 Hz, porch at 1500 Hz, then
either the G, B, R scans with separators (RGB modes) or the Robot YUV line. -/
def linePulses (m : SSTVMode) (data : ℕ → ℚ) (width y : ℕ) : List (ℚ × ℚ) :=
  [(1200, m.syncPulse), (1500, m.syncPorch)]
    ++ (match m.colorFormat with
        | .RGB =>
            scanLinePulses m.scanTime data width y 1 ++ sepPulses m
              ++ scanLinePulses m.scanTime data width y 2 ++ sepPulses m
              ++ scanLinePulses m.scanTime data width y 0
        | .YUV => robotLinePulses data width y)

/-- addImageData: all lines of the raster in order. -/
def imagePulses (m : SSTVMode) (data : ℕ → ℚ) (width height : ℕ) :
    List (ℚ × ℚ) :=
  (List.range height).flatMap (linePulses m data width)

/-- generateAudio: VIS framing followed by the image data; in encodeImage the
raster is drawn at exactly (mode.width, mode.lines). -/
def encodePulses (m : SSTVMode) (data : ℕ → ℚ) : List (ℚ × ℚ) :=
  visPulses m.visCode ++ imagePulses m data m.width m.lines

/-- All raster bytes are Uint8ClampedArray values, so they lie in [0, 255]. -/
def ByteRange (data : ℕ → ℚ) : Prop := ∀ i, 0 ≤ data i ∧ data i ≤ 255

/-- Every pulse frequency lies in the SSTV band [1100, 2300] Hz. -/
def InBand (ps : List (ℚ × ℚ)) : Prop :=
  ∀ p ∈ ps, 1100 ≤ p.1 ∧ p.1 ≤ 2300

/-- The BT.601 video-range forward luma exactly as the claim words it:
Y = 16 + (65.738 R + 129.057 G + 25.064 B) / 256. Stated for comparison with
the luma the source computes. -/
def specY601 (r g b : ℚ) : ℚ :=
  16 + (65738/1000 * r + 129057/1000 * g + 25064/1000 * b) / 256

/-- The Y-scan frequency map exactly as the claim words it:
f = 1500 + ((Y - 16) / 219) * 800 on the video-range luma. -/
def specYFreq (r g b : ℚ) : ℚ := 1500 + (specY601 r g b - 16) / 219 * 800

/-- The per-pixel chrominance component that addScanLineYUV selects: U on even
lines, V on odd lines, evaluated on a single source pixel of row y. -/
def pixelChroma (data : ℕ → ℚ) (width y x : ℕ) : ℚ :=
  let idx := (y * width + x) * 4
  if y % 2 = 0 then uComp (data idx) (data (idx + 1)) (data (idx + 2))
  else vComp (data idx) (data (idx + 1)) (data (idx + 2))

/-! ## Tone rendering: addTone and the continuous-phase accumulator -/

noncomputable section

/-- JS truncation toward zero of a real number, as an integer. -/
def jsTrunc (q : ℝ) : ℤ := if 0 ≤ q then ⌊q⌋ else -⌊-q⌋

/-- The JS remainder operator on numbers: a % b = a - b * trunc (a / b). -/
def jsRem (a b : ℝ) : ℝ := a - b * jsTrunc (a / b)

/-- Encoder state: the running phase accumulator (this.phase) and the sample
array the tones are pushed onto. -/
structure EncSt where
  phase : ℝ
  samples : List ℝ

/-- Sample count of one tone: Math.floor (duration * sampleRate). -/
def numToneSamples (sampleRate : ℕ) (duration : ℝ) : ℕ :=
  (⌊duration * sampleRate⌋).toNat

/-- Per-sample phase increment of addTone: 2 pi frequency / sampleRate. -/
def phaseInc (sampleRate : ℕ) (frequency : ℝ) : ℝ :=
  2 * Real.pi * frequency / sampleRate

/-- The samples one addTone call pushes: sin of the running phase, which
advances by the increment after each sample. -/
def toneSamples (sampleRate : ℕ) (phase0 frequency : ℝ) (n : ℕ) : List ℝ :=
  (List.range n).map fun (i : ℕ) =>
    Real.sin (phase0 + (i : ℝ) * phaseInc sampleRate frequency)

/-- addTone: push floor(duration * sampleRate) samples of sin(phase), then
keep the advanced phase reduced by the JS remainder with 2 pi. -/
def addTone (sampleRate : ℕ) (frequency duration : ℝ) (st : EncSt) : EncSt :=
  let n := numToneSamples sampleRate duration
  { phase := jsRem (st.phase + n * phaseInc sampleRate frequency) (2 * Real.pi),
    samples := st.samples ++ toneSamples sampleRate st.phase frequency n }

/-- Render a pulse list through consecutive addTone calls. -/
def runPulses (sampleRate : ℕ) (ps : List (ℚ × ℚ)) (st : EncSt) : EncSt :=
  ps.foldl (fun s p => addTone sampleRate (p.1 : ℝ) (p.2 : ℝ) s) st

/-- generateAudio: the complete sample stream of one encode; the constructor
initialises this.phase = 0 and the sample array empty. -/
def generateSamples (sampleRate : ℕ) (m : SSTVMode) (data : ℕ → ℚ) : List ℝ :=
  (runPulses sampleRate (encodePulses m data) ⟨0, []⟩).samples

/-- The claimed bound on consecutive-sample jumps: 2 sin (pi f_max / Fs) with
f_max = 2300. -/
def maxStep (sampleRate : ℕ) : ℝ := 2 * Real.sin (Real.pi * 2300 / sampleRate)

/-- Every adjacent pair of a sample list differs by at most B. -/
def PairBound (B : ℝ) (l : List ℝ) : Prop :=
  ∀ i a b, l[i]? = some a → l[i + 1]? = some b → |b - a| ≤ B

/-- Invariant tying the stored phase to the emitted samples: adjacent samples
differ by at most B, and a sample emitted next at the stored phase would
extend the stream within the same bound. -/
def ChainInv (B : ℝ) (st : EncSt) : Prop :=
  PairBound B st.samples
    ∧ ∀ v, st.samples.getLast? = some v → |Real.sin st.phase - v| ≤ B

/-! ## Decoder: Goertzel frequency estimation -/

/-- One step of the Goertzel recurrence: s0 = x + coeff * s1 - s2, carrying
(s1, s2). -/
def goertzelStep (coeff : ℝ) (s : ℝ × ℝ) (x : ℝ) : ℝ × ℝ :=
  (x + coeff * s.1 - s.2, s.1)

/-- The goertzel method of SSTVDecoder: magnitude |X(f)| / N over the slice
[startIdx, endIdx) with non-integer bin index k = N f / Fs. Out-of-range
array reads (never exercised by in-bounds callers) default to 0. -/
def goertzel (sampleRate : ℕ) (samples : List ℝ) (startIdx endIdx : ℕ)
    (targetFreq : ℝ) : ℝ :=
  let N := endIdx - startIdx
  let k := (N : ℝ) * targetFreq / sampleRate
  let omega := 2 * Real.pi * k / N
  let coeff := 2 * Real.cos omega
  let s := (List.range N).foldl
    (fun st i => goertzelStep coeff st (samples.getD (startIdx + i) 0)) (0, 0)
  let realPart := s.1 - s.2 * Real.cos omega
  let imagPart := s.2 * Real.sin omega
  Real.sqrt (realPart * realPart + imagPart * imagPart) / N

/-- Argmax sweep: fold a frequency list keeping (maxMag, detectedFreq), and
replace only on strictly larger magnitude, as the source does. -/
def sweepBest (evalMag : ℝ → ℝ) (freqs : List ℝ) (init : ℝ × ℝ) : ℝ × ℝ :=
  freqs.foldl (fun best f =>
    let m := evalMag f
    if best.1 < m then (m, f) else best) init

/-- The fixed test frequencies of detectFrequency. -/
def testFreqs : List ℝ :=
  [1100, 1200, 1300, 1400, 1500, 1600, 1700, 1800, 1900, 2000, 2100, 2200, 2300]

/-- detectFrequency: Goertzel over the 13 fixed test frequencies, then, when
the best magnitude exceeds 0.05, a fine sweep of 10 Hz steps within plus or
minus 100 Hz of the winner; slices shorter than 10 samples return 0. -/
def detectFrequency (sampleRate : ℕ) (samples : List ℝ) (startIdx : ℕ)
    (duration : ℝ) : ℝ :=
  let numSamples := (⌊duration * sampleRate⌋).toNat
  let endIdx := min (startIdx + numSamples) samples.length
  if (endIdx : ℤ) - startIdx < 10 then 0
  else
    let coarse := sweepBest (goertzel sampleRate samples startIdx endIdx)
      testFreqs (0, 1500)
    if 5/100 < coarse.1 then
      (sweepBest (goertzel sampleRate samples startIdx endIdx)
        ((List.range 21).map fun (j : ℕ) => coarse.2 - 100 + 10 * (j : ℝ))
        coarse).2
    else coarse.2

/-- The coarse sweep frequencies of detectFrequencyRange: 1100 Hz to 2500 Hz
in 25 Hz steps (FREQ_SYNC - 100 up to FREQ_WHITE + 200). -/
def coarseFreqs : List ℝ :=
  (List.range 57).map fun (j : ℕ) => 1100 + 25 * (j : ℝ)

/-- detectFrequencyRange: coarse 25 Hz sweep over the SSTV range followed by
a 1 Hz fine sweep within plus or minus 30 Hz of the coarse winner, clipped to
[1100, 2500]; slices shorter than 10 samples return FREQ_BLACK = 1500. -/
def detectFrequencyRange (sampleRate : ℕ) (samples : List ℝ) (startIdx : ℕ)
    (duration : ℝ) : ℝ :=
  let numSamples := (⌊duration * sampleRate⌋).toNat
  let endIdx := min (startIdx + numSamples) samples.length
  if (endIdx : ℤ) - startIdx < 10 then 1500
  else
    let coarse := sweepBest (goertzel sampleRate samples startIdx endIdx)
      coarseFreqs (0, 1500)
    let fineStart := max 1100 (coarse.2 - 30)
    let fineEnd := min 2500 (coarse.2 + 30)
    let count := (⌊fineEnd - fineStart⌋).toNat + 1
    (sweepBest (goertzel sampleRate samples startIdx endIdx)
      ((List.range count).map fun (j : ℕ) => fineStart + (j : ℝ)) coarse).2

/-! ## Decoder: RGB scan lines (decodeScanLine) -/

/-- JS Math.round: floor (x + 1/2). -/
def jsRound (x : ℝ) : ℤ := ⌊x + 1/2⌋

/-- The frequency-to-byte map of decodeScanLine: scale (f - 1500) / 800 to
0..255, round, then clamp to [0, 255]. -/
def pixelValue (freq : ℝ) : ℕ :=
  (max 0 (min 255 (jsRound ((freq - 1500) / (2300 - 1500) * 255)))).toNat

/-- samplesPerPixel of decodeScanLine: floor (scanTime * Fs / width). -/
def samplesPerPixelRGB (sampleRate : ℕ) (scanTime : ℚ) (width : ℕ) : ℕ :=
  (⌊(scanTime * (sampleRate : ℚ)) / (width : ℚ)⌋).toNat

/-- One iteration of the decodeScanLine pixel loop over the raster-and-break
state. The loop breaks when the pixel start passes the end of the samples;
otherwise it estimates the frequency (over a 4-pixel window when that fits,
else over the remaining time), writes the mapped byte to channel of pixel
(x, y) and 255 to its alpha. -/
def dslStep (sampleRate : ℕ) (samples : List ℝ) (startPos : ℕ) (scanTime : ℚ)
    (width y channel : ℕ) (st : (ℕ → ℕ) × Bool) (x : ℕ) : (ℕ → ℕ) × Bool :=
  if st.2 then st
  else
    let spp := samplesPerPixelRGB sampleRate scanTime width
    let pos := startPos + x * spp
    if samples.length ≤ pos then (st.1, true)
    else
      let freq :=
        if pos + 4 * spp ≤ samples.length then
          detectFrequencyRange sampleRate samples pos
            ((scanTime : ℝ) / (width : ℝ) * 4)
        else
          detectFrequencyRange sampleRate samples pos
            (((samples.length - pos : ℕ) : ℝ) / (sampleRate : ℝ))
      let v := pixelValue freq
      let idx := (y * width + x) * 4
      (Function.update (Function.update st.1 (idx + channel) v) (idx + 3) 255,
        false)

/-- decodeScanLine: run the pixel loop over x = 0 .. width - 1, then return
the updated raster together with the advanced cursor
startPos + floor (scanTime * Fs). -/
def decodeScanLine (sampleRate : ℕ) (samples : List ℝ) (startPos : ℕ)
    (scanTime : ℚ) (width y channel : ℕ) (img : ℕ → ℕ) : (ℕ → ℕ) × ℕ :=
  let r := (List.range width).foldl
    (dslStep sampleRate samples startPos scanTime width y channel) (img, false)
  (r.1, startPos + (⌊scanTime * (sampleRate : ℚ)⌋).toNat)

/-! ## Decoder: chroma scan lines (decodeScanLineChroma) and reassembly -/

/-- The chroma component selector of decodeScanLineChroma. -/
inductive ChromaComp
  | U
  | V
deriving DecidableEq

/-- The frequency-to-chroma map of decodeScanLineChroma: 16 + 224 * (f -
1500) / 800, rounded, clamped to the video chroma range [16, 240]. -/
def chromaSampleValue (freq : ℝ) : ℕ :=
  (max 16 (min 240 (jsRound (16 + (freq - 1500) / (2300 - 1500) * (240 - 16))))).toNat

/-- Store one decoded chroma value at idx1 and, when still inside the
width * lines buffer, at idx1 + 1 (the half-resolution value covers two
pixels). -/
def chromaWrite (width lines : ℕ) (buf : ℕ → ℕ) (idx1 v : ℕ) : ℕ → ℕ :=
  let b1 := Function.update buf idx1 v
  if idx1 + 1 < width * lines then Function.update b1 (idx1 + 1) v else b1

/-- One iteration of the decodeScanLineChroma loop over
(chromaU, chromaV, break) state: centre a 98-percent-dwell window on the
middle of chroma pixel x, break when the window passes the end of the
samples, otherwise decode and store into the buffer named by the component
type. -/
def dscStep (sampleRate : ℕ) (samples : List ℝ) (startPos width lines y : ℕ)
    (comp : ChromaComp) (st : (ℕ → ℕ) × (ℕ → ℕ) × Bool) (x : ℕ) :
    (ℕ → ℕ) × (ℕ → ℕ) × Bool :=
  if st.2.2 then st
  else
    let halfWidth := width / 2
    let spp := (⌊((44/1000 : ℚ) * (sampleRate : ℚ)) / (halfWidth : ℚ)⌋).toNat
    let pixelTime : ℚ := (44/1000) / (halfWidth : ℚ)
    let windowDuration : ℚ := pixelTime * (98/100)
    let windowSamples := (⌊windowDuration * (sampleRate : ℚ)⌋).toNat
    let pixelPos := startPos + x * spp
    let pixelCenter := pixelPos + spp / 2
    let windowStart := (max 0 (⌊(pixelCenter : ℚ) - (windowSamples : ℚ) / 2⌋)).toNat
    let windowEnd := windowStart + windowSamples
    if samples.length ≤ windowEnd then (st.1, st.2.1, true)
    else
      let freq := detectFrequencyRange sampleRate samples windowStart
        ((windowDuration : ℝ))
      let v := chromaSampleValue freq
      let idx1 := y * width + x * 2
      match comp with
      | .U => (chromaWrite width lines st.1 idx1 v, st.2.1, false)
      | .V => (st.1, chromaWrite width lines st.2.1 idx1 v, false)

/-- decodeScanLineChroma: run the loop over x = 0 .. width/2 - 1 and return
the updated (chromaU, chromaV) buffers and the cursor advanced by
floor (0.044 * Fs). -/
def decodeScanLineChroma (sampleRate : ℕ) (samples : List ℝ)
    (startPos width lines y : ℕ) (comp : ChromaComp)
    (bufU bufV : ℕ → ℕ) : ((ℕ → ℕ) × (ℕ → ℕ)) × ℕ :=
  let r := (List.range (width / 2)).foldl
    (dscStep sampleRate samples startPos width lines y comp) (bufU, bufV, false)
  ((r.1, r.2.1), startPos + (⌊(44/1000 : ℚ) * (sampleRate : ℚ)⌋).toNat)

/-- decodeImage initialises both chroma scratch buffers with
Array(width * lines).fill(128). -/
def initChroma : ℕ → ℕ := fun _ => 128

/-- All entries of a chroma scratch buffer lie in the video range [16, 240]. -/
def ChromaRange (buf : ℕ → ℕ) : Prop := ∀ i, 16 ≤ buf i ∧ buf i ≤ 240

/-- JS short-circuit default v || d on numbers: d when v is the falsy 0,
otherwise v. -/
def jsOrDefault (v d : ℕ) : ℕ := if v = 0 then d else v

/-- The V read of convertYUVtoRGB for pixel (x, pair starting at even line
y): chromaV[evenLine * width + x] || 128. -/
def reassemblyV (bufV : ℕ → ℕ) (width y x : ℕ) : ℕ :=
  jsOrDefault (bufV (y * width + x)) 128

/-- The U read of convertYUVtoRGB for pixel (x, pair starting at even line
y): chromaU[oddLine * width + x] || 128 with oddLine = min (y+1) (lines-1). -/
def reassemblyU (bufU : ℕ → ℕ) (width lines y x : ℕ) : ℕ :=
  jsOrDefault (bufU (min (y + 1) (lines - 1) * width + x)) 128

/-! ## Decoder: VIS detection (detectMode / decodeVIS / decodeAudio) -/

/-- Mode-table lookup by VIS code, in Object.entries order. -/
def lookupVIS (code : ℕ) : Option SSTVMode :=
  supportedModes.find? (fun m => m.visCode == code)

/-- One VIS bit period in samples: floor (0.03 * Fs). -/
def visStepSamples (sampleRate : ℕ) : ℕ :=
  (⌊(3/100 : ℚ) * (sampleRate : ℚ)⌋).toNat

/-- decodeVIS: skip the start bit, then read seven 30 ms windows; a window
whose estimated frequency is below 1200 Hz contributes a set bit, assembled
LSB-first. -/
def decodeVIS (sampleRate : ℕ) (samples : List ℝ) (startIdx : ℕ) : ℕ :=
  (List.range 7).foldl (fun visCode bit =>
    if detectFrequency sampleRate samples
        (startIdx + (1 + bit) * visStepSamples sampleRate) ((3/100 : ℚ) : ℝ)
        < 1200
    then visCode ||| (1 <<< bit) else visCode) 0

/-- The candidate start positions of the detectMode scan: every
floor (0.0005 * Fs) samples from 0 while i < searchSamples - 1000, where
searchSamples = min (length) (2 s of samples). -/
def modeSearchCandidates (sampleRate samplesLen : ℕ) : List ℕ :=
  let searchSamples := min samplesLen (sampleRate * 2)
  let step := (⌊(5/10000 : ℚ) * (sampleRate : ℚ)⌋).toNat
  (List.range searchSamples).filter
    (fun i => i % step = 0 ∧ i + 1000 < searchSamples)

/-- The search loop of detectMode: at each candidate whose 30 ms window sits
within 75 Hz of 1900 Hz, decode the VIS bits and return the first mode-table
match. -/
def detectModeLoop (sampleRate : ℕ) (samples : List ℝ) : Option SSTVMode :=
  (modeSearchCandidates sampleRate samples.length).findSome? (fun i =>
    if |detectFrequency sampleRate samples i ((3/100 : ℚ) : ℝ) - 1900| < 75
    then lookupVIS (decodeVIS sampleRate samples i) else none)

/-- detectMode: the search loop result, falling back to SSTV_MODES.ROBOT36
when the loop finds nothing. -/
def detectMode (sampleRate : ℕ) (samples : List ℝ) : SSTVMode :=
  (detectModeLoop sampleRate samples).getD ROBOT36

/-- The nullable this.mode field right after decodeAudio assigns
this.mode = this.detectMode(samples); detectMode always returns a mode
object, so the field is always populated. -/
def detectedMode (sampleRate : ℕ) (samples : List ℝ) : Option SSTVMode :=
  some (detectMode sampleRate samples)

/-- The mode check of decodeAudio: throw when this.mode is null, otherwise
continue decoding with the detected mode. -/
def decodeAudioDetect (sampleRate : ℕ) (samples : List ℝ) :
    Except String SSTVMode :=
  match detectedMode sampleRate samples with
  | some m => Except.ok m
  | none => Except.error "Could not detect SSTV mode. Try manually selecting a mode."

/-! ## FM demodulator front end (FMDemodulator with KaiserFIR)

Complex.js and Phasor.js are imported by FMDemodulator.js but are not among
the source files; the complex numbers are Lean complex numbers and the
phasor is modelled from the spec. -/

/-- Modelled from the spec: Phasor.js is missing from the sources; per the
spec the baseband mixer multiplies the n-th real sample by
exp(-j 2 pi Fc n / Fs). -/
def phasorValue (centerFreq : ℝ) (sampleRate : ℕ) (n : ℕ) : ℂ :=
  Complex.exp (-(2 * Real.pi * centerFreq * (n : ℝ) / (sampleRate : ℝ)) * Complex.I)

/-- besselI0 of KaiserFIR: the truncated power series for the modified
Bessel function of order 0, with the early break when a term drops below
1e-12 of the running sum, folded over k = 1 .. 49 with (sum, term, done)
state. -/
def besselI0 (x : ℝ) : ℝ :=
  ((List.range 49).foldl (fun (st : ℝ × ℝ × Bool) k =>
    if st.2.2 then st
    else
      let term := st.2.1 * (x / (2 * ((k : ℝ) + 1))) * (x / (2 * ((k : ℝ) + 1)))
      let sum := st.1 + term
      (sum, term, decide (term < 1e-12 * sum))) (1, 1, false)).1

/-- The Kaiser window of KaiserFIR:
I0 (beta * sqrt (1 - ((n - alpha) / alpha)^2)) / I0 (beta) with
alpha = (N - 1) / 2. -/
def kaiserWindow (beta : ℝ) (numTaps n : ℕ) : ℝ :=
  let alpha := ((numTaps : ℝ) - 1) / 2
  besselI0 (beta * Real.sqrt (1 - (((n : ℝ) - alpha) / alpha) ^ 2)) / besselI0 beta

/-- The KaiserFIR constructor: numTaps = floor (duration * Fs) | 1 windowed
sinc taps at normalised cutoff 2 fc / Fs, normalised to unit DC gain. -/
def kaiserTaps (cutoffFreq : ℝ) (sampleRate : ℕ) (duration beta : ℝ) : List ℝ :=
  let numTaps := (⌊duration * (sampleRate : ℝ)⌋).toNat ||| 1
  let normalizedCutoff := 2 * cutoffFreq / (sampleRate : ℝ)
  let center := ((numTaps : ℝ) - 1) / 2
  let raw := (List.range numTaps).map fun (i : ℕ) =>
    let x := (i : ℝ) - center
    let sinc := if x = 0 then normalizedCutoff
      else Real.sin (Real.pi * x * normalizedCutoff) / (Real.pi * x * normalizedCutoff)
    sinc * kaiserWindow beta numTaps i
  let sum := raw.foldl (· + ·) 0
  raw.map (· / sum)

/-- KaiserFIR.push on the delay line held oldest-first (the circular buffer
of the source read in convolution order): drop the oldest sample, append the
new one, and convolve against the taps. -/
def firPush (taps : List ℝ) (buf : List ℂ) (sample : ℂ) : ℂ × List ℂ :=
  let newBuf := buf.drop 1 ++ [sample]
  ((newBuf.zip taps).foldl (fun acc p => acc + p.1 * (p.2 : ℂ)) 0, newBuf)

/-- FMDemodulator state: the phasor position, the FIR delay line, and
prevPhase. -/
structure FMSt where
  sampleIndex : ℕ
  buf : List ℂ
  prevPhase : ℝ

/-- The FMDemodulator lowpass taps: cutoff bandwidth/2, duration 2 ms,
beta 8. -/
def fmTaps (bandwidth : ℝ) (sampleRate : ℕ) : List ℝ :=
  kaiserTaps (bandwidth / 2) sampleRate (2/1000) 8

/-- The phase-difference wrap of demodulate: subtract 2 pi above pi, add
2 pi below -pi. -/
def fmWrap (delta : ℝ) : ℝ :=
  if Real.pi < delta then delta - 2 * Real.pi
  else if delta < -Real.pi then delta + 2 * Real.pi
  else delta

/-- The FMDemodulator scale: sampleRate / (pi * bandwidth). -/
def fmScale (sampleRate bandwidth : ℝ) : ℝ :=
  sampleRate / (Real.pi * bandwidth)

/-- The lowpass-filtered baseband sample demodulate computes: mix the real
sample against the phasor, then push through the Kaiser FIR. -/
def fmFiltered (centerFreq bandwidth : ℝ) (sampleRate : ℕ) (st : FMSt)
    (sample : ℝ) : ℂ :=
  (firPush (fmTaps bandwidth sampleRate) st.buf
    ((sample : ℂ) * phasorValue centerFreq sampleRate st.sampleIndex)).1

/-- demodulate: mix to baseband, lowpass, take the wrapped phase difference
against prevPhase, scale, clamp to [-1, 1], and store the new state. -/
def demodulate (centerFreq bandwidth : ℝ) (sampleRate : ℕ) (st : FMSt)
    (sample : ℝ) : ℝ × FMSt :=
  let pr := firPush (fmTaps bandwidth sampleRate) st.buf
    ((sample : ℂ) * phasorValue centerFreq sampleRate st.sampleIndex)
  let phase := pr.1.arg
  let delta := fmWrap (phase - st.prevPhase)
  let normalized := max (-1) (min 1 (fmScale (sampleRate : ℝ) bandwidth * delta))
  (normalized, ⟨st.sampleIndex + 1, pr.2, phase⟩)

end

end SSTV

section Theorems

open SSTV

/-- C3: for every supported mode, the VIS framing is exactly 300 ms at
1900 Hz, 10 ms at 1200 Hz, 30 ms at 1900 Hz, the seven VIS bits LSB-first as
30 ms tones (1100 Hz for 1, 1300 Hz for 0), a 30 ms parity tone whose bit is
the XOR of the seven data bits, and 30 ms at 1200 Hz. -/
theorem vis_framing_structure :
    visPulses ROBOT36.visCode = visFramingSpec ROBOT36.visCode
      ∧ visPulses MARTIN1.visCode = visFramingSpec MARTIN1.visCode
      ∧ visPulses SCOTTIE1.visCode = visFramingSpec SCOTTIE1.visCode := by
  refine ⟨?_, ?_, ?_⟩ <;>
    simp [visPulses, visFramingSpec, visDataStep, visParity, visBitFreq,
      List.range_succ, ROBOT36, MARTIN1, SCOTTIE1]

/-! ### Supporting lemmas: pulse frequencies and pulse-list structure -/

theorem scanFreq_band (v : ℚ) (h0 : 0 ≤ v) (h1 : v ≤ 255) :
    1500 ≤ scanFreq v ∧ scanFreq v ≤ 2300 := by
  simp only [scanFreq]
  constructor <;> nlinarith

theorem lumaY_range (r g b : ℚ) (hr0 : 0 ≤ r) (hr1 : r ≤ 255) (hg0 : 0 ≤ g)
    (hg1 : g ≤ 255) (hb0 : 0 ≤ b) (hb1 : b ≤ 255) :
    0 ≤ lumaY r g b ∧ lumaY r g b ≤ 255 := by
  simp only [lumaY]
  constructor <;> nlinarith

theorem chromaFreq_band (c : ℚ) : 1500 ≤ chromaFreq c ∧ chromaFreq c ≤ 2300 := by
  simp only [chromaFreq]
  have h0 : (0 : ℚ) ≤ max 0 (min 255 ((c + 156) / 312 * 255)) := le_max_left _ _
  have h1 : max 0 (min 255 ((c + 156) / 312 * 255)) ≤ 255 :=
    max_le (by norm_num) (min_le_left _ _)
  constructor <;> nlinarith

theorem visBitFreq_band (bit : ℕ) :
    1100 ≤ visBitFreq bit ∧ visBitFreq bit ≤ 2300 := by
  unfold visBitFreq
  split <;> norm_num

theorem visFold_band (vis : ℕ) (L : List ℕ) (st : ℕ × List (ℚ × ℚ))
    (h : InBand st.2) : InBand ((L.foldl (visDataStep vis) st).2) := by
  induction L generalizing st with
  | nil => exact h
  | cons a L ih =>
    refine ih _ ?_
    intro p hp
    simp only [visDataStep, List.mem_append, List.mem_singleton] at hp
    rcases hp with hp | rfl
    · exact h p hp
    · exact visBitFreq_band _

theorem visPulses_band (vis : ℕ) : InBand (visPulses vis) := by
  intro p hp
  unfold visPulses at hp
  rcases List.mem_append.1 hp with hp | hp
  · rcases List.mem_append.1 hp with hp | hp
    · fin_cases hp <;> norm_num
    · exact visFold_band vis (List.range 7) (0, [])
        (fun q hq => absurd hq (List.not_mem_nil q)) p hp
  · rcases List.mem_cons.1 hp with rfl | hp
    · exact visBitFreq_band _
    · rcases List.mem_cons.1 hp with rfl | hp
      · norm_num
      · cases hp

theorem scanLinePulses_band (scanTime : ℚ) (data : ℕ → ℚ) (width y channel : ℕ)
    (hd : ByteRange data) :
    InBand (scanLinePulses scanTime data width y channel) := by
  intro p hp
  simp only [scanLinePulses, List.mem_map, List.mem_range] at hp
  obtain ⟨x, -, rfl⟩ := hp
  have h := scanFreq_band (data ((y * width + x) * 4 + channel)) (hd _).1 (hd _).2
  exact ⟨le_trans (by norm_num) h.1, h.2⟩

theorem robotLinePulses_band (data : ℕ → ℚ) (width y : ℕ) (hd : ByteRange data) :
    InBand (robotLinePulses data width y) := by
  intro p hp
  unfold robotLinePulses at hp
  rcases List.mem_append.1 hp with hp | hp
  · rcases List.mem_append.1 hp with hp | hp
    · simp only [robotYPulses, List.mem_map, List.mem_range] at hp
      obtain ⟨x, -, rfl⟩ := hp
      have h := lumaY_range (data ((y * width + x) * 4))
        (data ((y * width + x) * 4 + 1)) (data ((y * width + x) * 4 + 2))
        (hd ((y * width + x) * 4)).1 (hd ((y * width + x) * 4)).2
        (hd ((y * width + x) * 4 + 1)).1 (hd ((y * width + x) * 4 + 1)).2
        (hd ((y * width + x) * 4 + 2)).1 (hd ((y * width + x) * 4 + 2)).2
      have h2 := scanFreq_band _ h.1 h.2
      exact ⟨le_trans (by norm_num) h2.1, h2.2⟩
    · rcases List.mem_cons.1 hp with rfl | hp
      · by_cases hy : y % 2 = 0 <;> simp [robotSepFreq, hy] <;> norm_num
      · rcases List.mem_cons.1 hp with rfl | hp
        · norm_num
        · cases hp
  · simp only [robotChromaPulses, List.mem_map, List.mem_range] at hp
    obtain ⟨k, -, rfl⟩ := hp
    have h := chromaFreq_band (if y % 2 = 0 then
        uComp ((data ((y * width + 2 * k) * 4)
              + data ((y * width + min (2 * k + 1) (width - 1)) * 4)) / 2)
          ((data ((y * width + 2 * k) * 4 + 1)
              + data ((y * width + min (2 * k + 1) (width - 1)) * 4 + 1)) / 2)
          ((data ((y * width + 2 * k) * 4 + 2)
              + data ((y * width + min (2 * k + 1) (width - 1)) * 4 + 2)) / 2)
      else
        vComp ((data ((y * width + 2 * k) * 4)
              + data ((y * width + min (2 * k + 1) (width - 1)) * 4)) / 2)
          ((data ((y * width + 2 * k) * 4 + 1)
              + data ((y * width + min (2 * k + 1) (width - 1)) * 4 + 1)) / 2)
          ((data ((y * width + 2 * k) * 4 + 2)
              + data ((y * width + min (2 * k + 1) (width - 1)) * 4 + 2)) / 2))
    exact ⟨le_trans (by norm_num) h.1, h.2⟩

theorem sepPulses_band (m : SSTVMode) : InBand (sepPulses m) := by
  intro p hp
  unfold sepPulses at hp
  cases hs : m.separatorPulse with
  | none => simp only [hs] at hp; cases hp
  | some s =>
      simp only [hs] at hp
      by_cases h0 : s = 0
      · rw [if_pos h0] at hp; cases hp
      · rw [if_neg h0] at hp
        rcases List.mem_cons.1 hp with rfl | hp
        · norm_num
        · cases hp

theorem linePulses_band (m : SSTVMode) (data : ℕ → ℚ) (width y : ℕ)
    (hd : ByteRange data) : InBand (linePulses m data width y) := by
  intro p hp
  unfold linePulses at hp
  rcases List.mem_append.1 hp with hp | hp
  · rcases List.mem_cons.1 hp with rfl | hp
    · norm_num
    · rcases List.mem_cons.1 hp with rfl | hp
      · norm_num
      · cases hp
  · cases hf : m.colorFormat with
    | RGB =>
        simp only [hf] at hp
        rcases List.mem_append.1 hp with hp | hp
        · rcases List.mem_append.1 hp with hp | hp
          · rcases List.mem_append.1 hp with hp | hp
            · rcases List.mem_append.1 hp with hp | hp
              · exact scanLinePulses_band _ _ _ _ _ hd p hp
              · exact sepPulses_band m p hp
            · exact scanLinePulses_band _ _ _ _ _ hd p hp
          · exact sepPulses_band m p hp
        · exact scanLinePulses_band _ _ _ _ _ hd p hp
    | YUV =>
        simp only [hf] at hp
        exact robotLinePulses_band _ _ _ hd p hp

theorem encodePulses_band (m : SSTVMode) (data : ℕ → ℚ) (hd : ByteRange data) :
    InBand (encodePulses m data) := by
  intro p hp
  simp only [encodePulses, List.mem_append] at hp
  rcases hp with hp | hp
  · exact visPulses_band _ p hp
  · simp only [imagePulses, List.mem_flatMap, List.mem_range] at hp
    obtain ⟨y, -, hp⟩ := hp
    exact linePulses_band _ _ _ _ hd p hp

/-- C10: for every raster and every mode, every tone the encoder schedules
(VIS framing, sync, porch, separators, and all pixel data in both the RGB and
the YUV paths) has a frequency in the band from 1100 Hz to 2300 Hz. -/
theorem encoder_band_limited (m : SSTVMode) (data : ℕ → ℚ)
    (hd : ByteRange data) :
    ∀ p ∈ encodePulses m data, 1100 ≤ p.1 ∧ p.1 ≤ 2300 :=
  encodePulses_band m data hd

/-- Witness for C10: the VIS leader tone of the all-black Robot 36 encode is
in band. -/
theorem encoder_band_limited_witness :
    1100 ≤ (((1900 : ℚ), (3/10 : ℚ)) : ℚ × ℚ).1
      ∧ (((1900 : ℚ), (3/10 : ℚ)) : ℚ × ℚ).1 ≤ 2300 :=
  encoder_band_limited ROBOT36 (fun _ => 0) (fun _ => by norm_num)
    (1900, 3/10)
    (by
      simp only [encodePulses, List.mem_append]
      left
      simp [visPulses, visDataStep, visBitFreq, List.range_succ, ROBOT36])

theorem robotLinePulses_get_y (data : ℕ → ℚ) (width y x : ℕ) (hx : x < width) :
    (robotLinePulses data width y)[x]?
      = some (scanFreq (lumaY (data ((y * width + x) * 4))
              (data ((y * width + x) * 4 + 1)) (data ((y * width + x) * 4 + 2))),
          88/1000 / (width : ℚ)) := by
  have hY : (robotYPulses data width y).length = width := by
    simp [robotYPulses]
  unfold robotLinePulses
  rw [List.append_assoc,
    List.getElem?_append_left (by rw [hY]; exact hx), robotYPulses,
    List.getElem?_map, List.getElem?_range hx]
  rfl

/-- C1 (amended): in the Robot 36 YUV path every Y-scan pixel is emitted as a
tone of frequency 1500 + (Y / 255) * 800 Hz, where Y is the full-range BT.601
luma Y = 0.299 R + 0.587 G + 0.114 B (so Y lies in [0, 255]), with one
pixel-dwell of (88 ms) / width. -/
theorem robot36_y_scan_frequency (data : ℕ → ℚ) (width y x : ℕ)
    (hx : x < width) :
    (robotLinePulses data width y)[x]?
      = some (1500 + lumaY (data ((y * width + x) * 4))
              (data ((y * width + x) * 4 + 1)) (data ((y * width + x) * 4 + 2))
              / 255 * 800,
          88/1000 / (width : ℚ)) := by
  rw [robotLinePulses_get_y data width y x hx]
  norm_num [scanFreq]

/-- Witness for C1 (amended) at pixel (0, 0) of the all-black raster. -/
theorem robot36_y_scan_frequency_witness :
    (robotLinePulses (fun _ => 0) 320 0)[(0 : ℕ)]?
      = some (1500 + lumaY 0 0 0 / 255 * 800, 88/1000 / (320 : ℚ)) := by
  have h := robot36_y_scan_frequency (fun _ => 0) 320 0 0 (by norm_num)
  simpa using h

/-- Counterexample to C1 as stated: for an all-white raster the emitted
Y-scan tone for pixel (0, 0) has frequency scanFreq (lumaY 255 255 255)
= 2300 Hz, while the claimed video-range formula
1500 + ((Y - 16) / 219) * 800 with Y = 16 + (65.738 R + 129.057 G +
25.064 B) / 256 yields a different frequency. -/
theorem robot36_y_scan_spec_mismatch :
    ((robotLinePulses (fun _ => 255) 320 0)[(0 : ℕ)]?).map Prod.fst
        = some (scanFreq (lumaY 255 255 255))
      ∧ scanFreq (lumaY 255 255 255) ≠ specYFreq 255 255 255 := by
  constructor
  · rw [robotLinePulses_get_y (fun _ => 255) 320 0 0 (by norm_num)]
    rfl
  · norm_num [scanFreq, lumaY, specYFreq, specY601]

/-- C2: after the Y scan of line y the Robot 36 encoder emits a 4.5 ms
separator whose frequency alternates by line parity (1500 Hz on even lines,
announcing Cb/U, 2300 Hz on odd lines, announcing Cr/V), then a 1.5 ms porch
at 1500 Hz, then a chroma scan of exactly width / 2 tones whose durations sum
to 44 ms, in which the chroma value of tone k is the average of the chroma
components (U on even lines, V on odd lines) of the two adjacent source
pixels 2k and 2k+1. -/
theorem robot36_separator_porch_chroma (data : ℕ → ℚ) (width y : ℕ)
    (hw : 2 ∣ width) (h0 : 0 < width) :
    (robotLinePulses data width y)[width]?
        = some (robotSepFreq y, (45/10000 : ℚ))
      ∧ robotSepFreq y = (if y % 2 = 0 then 1500 else 2300)
      ∧ (robotLinePulses data width y)[width + 1]? = some ((1500 : ℚ), (15/10000 : ℚ))
      ∧ (robotChromaPulses data width y).length = width / 2
      ∧ ((width / 2 : ℕ) : ℚ) * ((44/1000) / ((width : ℚ) / 2)) = 44/1000
      ∧ ∀ k, k < width / 2 →
          (robotLinePulses data width y)[width + 2 + k]?
            = some (chromaFreq ((pixelChroma data width y (2 * k)
                    + pixelChroma data width y (2 * k + 1)) / 2),
                (44/1000) / ((width : ℚ) / 2)) := by
  obtain ⟨t, rfl⟩ := hw
  have ht : 0 < t := by omega
  have hY : (robotYPulses data (2 * t) y).length = 2 * t := by
    simp [robotYPulses]
  have hhalf : (2 * t + 1) / 2 = t := by omega
  have hdiv : 2 * t / 2 = t := by omega
  refine ⟨?_, rfl, ?_, ?_, ?_, ?_⟩
  · rw [robotLinePulses, List.append_assoc,
      List.getElem?_append_right (by rw [hY] : (robotYPulses data (2 * t) y).length ≤ 2 * t)]
    simp [hY]
  · rw [robotLinePulses, List.append_assoc,
      List.getElem?_append_right (by rw [hY]; omega :
        (robotYPulses data (2 * t) y).length ≤ 2 * t + 1)]
    simp [hY]
  · simp only [robotChromaPulses, List.length_map, List.length_range]
    omega
  · have htQ : ((t : ℚ)) ≠ 0 := by exact_mod_cast ht.ne.symm
    rw [hdiv]
    push_cast
    field_simp
    ring
  · intro k hk
    rw [hdiv] at hk
    rw [robotLinePulses, List.append_assoc,
      List.getElem?_append_right (by rw [hY]; omega :
        (robotYPulses data (2 * t) y).length ≤ 2 * t + 2 + k)]
    rw [hY]
    have hidx : 2 * t + 2 + k - 2 * t = k + 1 + 1 := by omega
    rw [hidx, List.cons_append, List.cons_append, List.nil_append,
      List.getElem?_cons_succ, List.getElem?_cons_succ]
    have hk2 : k < (2 * t + 1) / 2 := by omega
    rw [robotChromaPulses, List.getElem?_map, List.getElem?_range hk2]
    simp only [Option.map_some']
    have hmin : min (2 * k + 1) (2 * t - 1) = 2 * k + 1 := by omega
    rw [Option.some.injEq, Prod.mk.injEq]
    refine ⟨?_, rfl⟩
    rw [hmin]
    congr 1
    by_cases hy : y % 2 = 0
    · simp only [pixelChroma, uComp, vComp, lumaY, if_pos hy]
      ring
    · simp only [pixelChroma, uComp, vComp, lumaY, if_neg hy]
      ring

/-- Witness for C2 on the all-black raster, width 320, line 0. -/
theorem robot36_separator_porch_chroma_witness :
    (robotLinePulses (fun _ => 0) 320 0)[(320 : ℕ)]?
        = some (robotSepFreq 0, (45/10000 : ℚ))
      ∧ robotSepFreq 0 = (if 0 % 2 = 0 then 1500 else 2300)
      ∧ (robotLinePulses (fun _ => 0) 320 0)[(321 : ℕ)]? = some ((1500 : ℚ), (15/10000 : ℚ))
      ∧ (robotChromaPulses (fun _ => 0) 320 0).length = 320 / 2
      ∧ ((320 / 2 : ℕ) : ℚ) * ((44/1000) / ((320 : ℚ) / 2)) = 44/1000
      ∧ ∀ k, k < 320 / 2 →
          (robotLinePulses (fun _ => 0) 320 0)[320 + 2 + k]?
            = some (chromaFreq ((pixelChroma (fun _ => 0) 320 0 (2 * k)
                    + pixelChroma (fun _ => 0) 320 0 (2 * k + 1)) / 2),
                (44/1000) / ((320 : ℚ) / 2)) :=
  robot36_separator_porch_chroma (fun _ => 0) 320 0 (by norm_num) (by norm_num)

/-! ### Tone generator: sample counts, phase advance, phase reduction -/

/-- C6: one addTone call at frequency f and duration d appends exactly
floor(d * Fs) samples, the i-th appended sample being sin(phase_i) where the
phase advances by 2 pi f / Fs per sample from the stored phase; afterwards
the stored phase is the advanced phase reduced by the JS remainder modulo
2 pi (an integer multiple of 2 pi below the advanced phase), and it lies in
[0, 2 pi) whenever f and the incoming phase are nonnegative. -/
theorem addTone_emits (sampleRate : ℕ) (f d phase0 : ℝ) (s0 : List ℝ)
    (hd : 0 ≤ d) :
    ((addTone sampleRate f d ⟨phase0, s0⟩).samples.length : ℤ)
        = s0.length + ⌊d * sampleRate⌋
      ∧ (∀ i, i < numToneSamples sampleRate d →
          (addTone sampleRate f d ⟨phase0, s0⟩).samples[s0.length + i]?
            = some (Real.sin (phase0 + i * (2 * Real.pi * f / sampleRate))))
      ∧ (addTone sampleRate f d ⟨phase0, s0⟩).phase
          = jsRem (phase0 + numToneSamples sampleRate d
              * (2 * Real.pi * f / sampleRate)) (2 * Real.pi)
      ∧ (∃ k : ℤ, phase0 + numToneSamples sampleRate d
            * (2 * Real.pi * f / sampleRate)
            - (addTone sampleRate f d ⟨phase0, s0⟩).phase = k * (2 * Real.pi))
      ∧ (0 ≤ f → 0 ≤ phase0 →
          (addTone sampleRate f d ⟨phase0, s0⟩).phase ∈ Set.Ico 0 (2 * Real.pi)) := by
  have hfl : 0 ≤ ⌊d * (sampleRate : ℝ)⌋ :=
    Int.floor_nonneg.mpr (mul_nonneg hd (Nat.cast_nonneg _))
  refine ⟨?_, ?_, rfl, ?_, ?_⟩
  · show ((s0 ++ toneSamples sampleRate phase0 f (numToneSamples sampleRate d)).length : ℤ) = _
    rw [List.length_append, toneSamples, List.length_map, List.length_range,
      numToneSamples]
    push_cast [Int.toNat_of_nonneg hfl]
    ring
  · intro i hi
    show (s0 ++ toneSamples sampleRate phase0 f (numToneSamples sampleRate d))[s0.length + i]? = _
    rw [List.getElem?_append_right (Nat.le_add_right _ _), Nat.add_sub_cancel_left,
      toneSamples, List.getElem?_map, List.getElem?_range hi]
    rfl
  · refine ⟨jsTrunc ((phase0 + numToneSamples sampleRate d
      * (2 * Real.pi * f / sampleRate)) / (2 * Real.pi)), ?_⟩
    show phase0 + numToneSamples sampleRate d * (2 * Real.pi * f / sampleRate)
        - jsRem (phase0 + numToneSamples sampleRate d
            * (2 * Real.pi * f / sampleRate)) (2 * Real.pi) = _
    unfold jsRem
    ring
  · intro hf hp0
    have hadv : 0 ≤ phase0 + numToneSamples sampleRate d
        * (2 * Real.pi * f / sampleRate) := by
      have h1 : 0 ≤ (2 : ℝ) * Real.pi * f :=
        mul_nonneg (by positivity) hf
      have h2 : 0 ≤ (2 : ℝ) * Real.pi * f / sampleRate :=
        div_nonneg h1 (Nat.cast_nonneg _)
      have h3 : 0 ≤ (numToneSamples sampleRate d : ℝ) := Nat.cast_nonneg _
      nlinarith
    show jsRem (phase0 + numToneSamples sampleRate d
        * (2 * Real.pi * f / sampleRate)) (2 * Real.pi) ∈ Set.Ico 0 (2 * Real.pi)
    unfold jsRem jsTrunc
    rw [if_pos (div_nonneg hadv Real.two_pi_pos.le)]
    have h1 := Int.sub_floor_div_mul_nonneg (phase0 + numToneSamples sampleRate d
      * (2 * Real.pi * f / sampleRate)) Real.two_pi_pos
    have h2 := Int.sub_floor_div_mul_lt (phase0 + numToneSamples sampleRate d
      * (2 * Real.pi * f / sampleRate)) Real.two_pi_pos
    constructor <;> [linarith; linarith]

/-- Witness for C6: at Fs = 48000, f = 1500, d = 1/100 the reduced phase
lands in [0, 2 pi). -/
theorem addTone_emits_witness :
    (addTone 48000 1500 (1/100) ⟨0, []⟩).phase ∈ Set.Ico 0 (2 * Real.pi) :=
  (addTone_emits 48000 1500 (1/100) 0 [] (by norm_num)).2.2.2.2
    (by norm_num) le_rfl

/-! ### Phase continuity of the full encoded stream -/

theorem sin_jsRem_two_pi (x : ℝ) :
    Real.sin (jsRem x (2 * Real.pi)) = Real.sin x := by
  unfold jsRem
  have h : x - 2 * Real.pi * (jsTrunc (x / (2 * Real.pi)) : ℝ)
      = x - (jsTrunc (x / (2 * Real.pi)) : ℝ) * (2 * Real.pi) := by ring
  rw [h, Real.sin_sub_int_mul_two_pi]

theorem sin_step_bound (sampleRate : ℕ) (hFs : 4600 ≤ sampleRate) (f : ℝ)
    (hf1 : 1100 ≤ f) (hf2 : f ≤ 2300) (θ : ℝ) :
    |Real.sin (θ + phaseInc sampleRate f) - Real.sin θ| ≤ maxStep sampleRate := by
  have hFsR : (4600 : ℝ) ≤ sampleRate := by exact_mod_cast hFs
  have hFs0 : (0 : ℝ) < sampleRate := by linarith
  have hf0 : (0 : ℝ) ≤ f := by linarith
  have ha0 : 0 ≤ Real.pi * f / sampleRate :=
    div_nonneg (mul_nonneg Real.pi_pos.le hf0) hFs0.le
  have hb0 : 0 ≤ Real.pi * 2300 / sampleRate :=
    div_nonneg (by positivity) hFs0.le
  have hab : Real.pi * f / sampleRate ≤ Real.pi * 2300 / sampleRate := by
    rw [div_le_div_iff₀ hFs0 hFs0]
    nlinarith [mul_le_mul_of_nonneg_right
      (mul_le_mul_of_nonneg_left hf2 Real.pi_pos.le) hFs0.le]
  have hb2 : Real.pi * 2300 / sampleRate ≤ Real.pi / 2 := by
    rw [div_le_div_iff₀ hFs0 two_pos]
    nlinarith [mul_le_mul_of_nonneg_left hFsR Real.pi_pos.le]
  have ha2 : Real.pi * f / sampleRate ≤ Real.pi / 2 := le_trans hab hb2
  have e1 : (θ + phaseInc sampleRate f - θ) / 2 = Real.pi * f / sampleRate := by
    unfold phaseInc; ring
  have e2 : (θ + phaseInc sampleRate f + θ) / 2 = θ + Real.pi * f / sampleRate := by
    unfold phaseInc; ring
  have hkey : Real.sin (θ + phaseInc sampleRate f) - Real.sin θ
      = 2 * Real.sin (Real.pi * f / sampleRate)
        * Real.cos (θ + Real.pi * f / sampleRate) := by
    rw [Real.sin_sub_sin, e1, e2]
  have hs0 : 0 ≤ Real.sin (Real.pi * f / sampleRate) :=
    Real.sin_nonneg_of_nonneg_of_le_pi ha0 (by linarith [Real.pi_pos])
  have hmono : Real.sin (Real.pi * f / sampleRate)
      ≤ Real.sin (Real.pi * 2300 / sampleRate) := by
    rcases eq_or_lt_of_le hab with he | hl
    · rw [he]
    · refine le_of_lt (Real.strictMonoOn_sin ⟨?_, ha2⟩ ⟨?_, hb2⟩ hl)
      · linarith [Real.pi_pos]
      · linarith [Real.pi_pos]
  rw [hkey, maxStep, abs_mul, abs_of_nonneg (mul_nonneg two_pos.le hs0)]
  have hcos := Real.abs_cos_le_one (θ + Real.pi * f / sampleRate)
  nlinarith [mul_nonneg hs0 (sub_nonneg.mpr hcos), hmono,
    abs_nonneg (Real.cos (θ + Real.pi * f / sampleRate))]

theorem addTone_chain (sampleRate : ℕ) (hFs : 4600 ≤ sampleRate) (f d : ℝ)
    (hf1 : 1100 ≤ f) (hf2 : f ≤ 2300) (st : EncSt)
    (h : ChainInv (maxStep sampleRate) st) :
    ChainInv (maxStep sampleRate) (addTone sampleRate f d st) := by
  obtain ⟨hpair, hlast⟩ := h
  constructor
  · intro i a b ha hb
    have hsam : (addTone sampleRate f d st).samples
        = st.samples ++ toneSamples sampleRate st.phase f (numToneSamples sampleRate d) := rfl
    rw [hsam] at ha hb
    by_cases h1 : i + 1 < st.samples.length
    · rw [List.getElem?_append_left (by omega)] at ha
      rw [List.getElem?_append_left h1] at hb
      exact hpair i a b ha hb
    · by_cases h0 : i < st.samples.length
      · rw [List.getElem?_append_left h0] at ha
        rw [List.getElem?_append_right (by omega)] at hb
        have hb2 : (toneSamples sampleRate st.phase f (numToneSamples sampleRate d))[0]? = some b := by
          rw [← hb]
          congr 1
          omega
        have hn0 : 0 < numToneSamples sampleRate d := by
          by_contra hc
          have hz : numToneSamples sampleRate d = 0 := by omega
          rw [hz] at hb2
          simp [toneSamples] at hb2
        rw [toneSamples, List.getElem?_map, List.getElem?_range hn0] at hb2
        have hbv : b = Real.sin st.phase := by
          have := Option.some.inj hb2
          simp at this
          exact this.symm
        have hav : st.samples.getLast? = some a := by
          rw [List.getLast?_eq_getElem?, ← ha]
          congr 1
          omega
        rw [hbv]
        exact hlast a hav
      · have hil : st.samples.length ≤ i := by omega
        rw [List.getElem?_append_right hil] at ha
        rw [List.getElem?_append_right (by omega)] at hb
        have hj1 : i + 1 - st.samples.length = (i - st.samples.length) + 1 := by omega
        rw [hj1] at hb
        have hjn : i - st.samples.length < numToneSamples sampleRate d := by
          by_contra hc
          push_neg at hc
          rw [toneSamples, List.getElem?_map,
            List.getElem?_eq_none (by simpa using hc)] at ha
          simp at ha
        have hj1n : (i - st.samples.length) + 1 < numToneSamples sampleRate d := by
          by_contra hc
          push_neg at hc
          rw [toneSamples, List.getElem?_map,
            List.getElem?_eq_none (by simpa using hc)] at hb
          simp at hb
        rw [toneSamples, List.getElem?_map, List.getElem?_range hjn] at ha
        rw [toneSamples, List.getElem?_map, List.getElem?_range hj1n] at hb
        have hav : a = Real.sin (st.phase
            + ((i - st.samples.length : ℕ) : ℝ) * phaseInc sampleRate f) :=
          (Option.some.inj ha).symm
        have hbv : b = Real.sin (st.phase
            + ((i - st.samples.length : ℕ) + 1 : ℕ) * phaseInc sampleRate f) :=
          (Option.some.inj hb).symm
        have harg : st.phase + (((i - st.samples.length : ℕ) + 1 : ℕ) : ℝ)
              * phaseInc sampleRate f
            = (st.phase + ((i - st.samples.length : ℕ) : ℝ) * phaseInc sampleRate f)
              + phaseInc sampleRate f := by
          push_cast
          ring
        rw [hav, hbv, harg]
        exact sin_step_bound sampleRate hFs f hf1 hf2 _
  · intro v hv
    have hsin : Real.sin (addTone sampleRate f d st).phase
        = Real.sin (st.phase + numToneSamples sampleRate d * phaseInc sampleRate f) :=
      sin_jsRem_two_pi _
    rcases Nat.eq_zero_or_pos (numToneSamples sampleRate d) with h0 | h0
    · have hv2 : st.samples.getLast? = some v := by
        have he : (addTone sampleRate f d st).samples = st.samples := by
          show st.samples ++ toneSamples sampleRate st.phase f (numToneSamples sampleRate d)
            = st.samples
          rw [h0]
          simp [toneSamples]
        rwa [he] at hv
      have hres := hlast v hv2
      rw [hsin, h0]
      simpa using hres
    · have htne : toneSamples sampleRate st.phase f (numToneSamples sampleRate d) ≠ [] := by
        simp only [toneSamples, ne_eq, List.map_eq_nil_iff, List.range_eq_nil]
        omega
      have hv2 : (toneSamples sampleRate st.phase f (numToneSamples sampleRate d)).getLast?
          = some v := by
        have he : (addTone sampleRate f d st).samples
            = st.samples ++ toneSamples sampleRate st.phase f (numToneSamples sampleRate d) := rfl
        rw [he, List.getLast?_append_of_ne_nil _ htne] at hv
        exact hv
      have hlen : (toneSamples sampleRate st.phase f (numToneSamples sampleRate d)).length
          = numToneSamples sampleRate d := by
        simp [toneSamples]
      rw [List.getLast?_eq_getElem?, hlen] at hv2
      have hn1 : numToneSamples sampleRate d - 1 < numToneSamples sampleRate d := by omega
      rw [toneSamples, List.getElem?_map, List.getElem?_range hn1] at hv2
      have hvv : v = Real.sin (st.phase
          + ((numToneSamples sampleRate d - 1 : ℕ) : ℝ) * phaseInc sampleRate f) :=
        (Option.some.inj hv2).symm
      have harg : st.phase + (numToneSamples sampleRate d : ℝ) * phaseInc sampleRate f
          = (st.phase + ((numToneSamples sampleRate d - 1 : ℕ) : ℝ)
              * phaseInc sampleRate f) + phaseInc sampleRate f := by
        have hc : ((numToneSamples sampleRate d - 1 : ℕ) : ℝ)
            = (numToneSamples sampleRate d : ℝ) - 1 := by
          push_cast [Nat.cast_sub h0]
          ring
        rw [hc]
        ring
      rw [hsin, hvv, harg]
      exact sin_step_bound sampleRate hFs f hf1 hf2 _

theorem runPulses_chain (sampleRate : ℕ) (hFs : 4600 ≤ sampleRate)
    (ps : List (ℚ × ℚ)) (hband : InBand ps) (st : EncSt)
    (h : ChainInv (maxStep sampleRate) st) :
    ChainInv (maxStep sampleRate) (runPulses sampleRate ps st) := by
  induction ps generalizing st with
  | nil => exact h
  | cons p ps ih =>
      have hp := hband p (List.mem_cons_self p ps)
      have h1 : (1100 : ℝ) ≤ (p.1 : ℝ) := by exact_mod_cast hp.1
      have h2 : ((p.1 : ℝ)) ≤ 2300 := by exact_mod_cast hp.2
      exact ih (fun q hq => hband q (List.mem_cons_of_mem p hq)) _
        (addTone_chain sampleRate hFs (p.1 : ℝ) (p.2 : ℝ) h1 h2 st h)

/-- C7: for every raster, every mode and every sample rate of at least twice
2300 Hz, any two consecutive samples of the complete encoded stream,
including pairs straddling tone boundaries, differ by at most
2 sin (pi 2300 / Fs). -/
theorem encoder_phase_continuity (sampleRate : ℕ) (m : SSTVMode)
    (data : ℕ → ℚ) (hd : ByteRange data) (hFs : 4600 ≤ sampleRate) :
    ∀ i a b, (generateSamples sampleRate m data)[i]? = some a →
      (generateSamples sampleRate m data)[i + 1]? = some b →
      |b - a| ≤ 2 * Real.sin (Real.pi * 2300 / sampleRate) := by
  have hinit : ChainInv (maxStep sampleRate) ⟨0, []⟩ := by
    constructor
    · intro i a b ha _
      simp at ha
    · intro v hv
      simp at hv
  have h := runPulses_chain sampleRate hFs (encodePulses m data)
    (encodePulses_band m data hd) ⟨0, []⟩ hinit
  exact h.1

/-- Witness for C7 at Fs = 48000, Robot 36, all-black raster. -/
theorem encoder_phase_continuity_witness :
    PairBound (2 * Real.sin (Real.pi * 2300 / (48000 : ℕ)))
      (generateSamples 48000 ROBOT36 (fun _ => 0)) :=
  fun i a b ha hb =>
    encoder_phase_continuity 48000 ROBOT36 (fun _ => 0)
      (fun _ => by norm_num) (by norm_num) i a b ha hb

/-! ### FM demodulator output -/

/-- C8: each demodulate call returns the wrapped phase difference of the
lowpass-filtered baseband signal against the stored previous phase, scaled by
S = Fs / (pi BW) and clamped to [-1, 1]; in particular every returned value
lies in [-1, 1]. -/
theorem fm_demodulate_clamped (centerFreq bandwidth : ℝ) (sampleRate : ℕ)
    (st : FMSt) (sample : ℝ) :
    (demodulate centerFreq bandwidth sampleRate st sample).1
        = max (-1) (min 1 (fmScale (sampleRate : ℝ) bandwidth
            * fmWrap ((fmFiltered centerFreq bandwidth sampleRate st sample).arg
                - st.prevPhase)))
      ∧ fmScale (sampleRate : ℝ) bandwidth
          = (sampleRate : ℝ) / (Real.pi * bandwidth)
      ∧ -1 ≤ (demodulate centerFreq bandwidth sampleRate st sample).1
      ∧ (demodulate centerFreq bandwidth sampleRate st sample).1 ≤ 1 := by
  refine ⟨rfl, rfl, le_max_left _ _, ?_⟩
  exact max_le (by norm_num) (min_le_left _ _)

/-! ### VIS fallback to Robot 36 -/

/-- C4: when no candidate position of the VIS scan both sits near 1900 Hz and
decodes to a VIS code present in the mode table, detectMode returns the
Robot 36 descriptor, and the mode check in decodeAudio succeeds rather than
raising the unrecognised-mode error. -/
theorem vis_fallback_robot36 (sampleRate : ℕ) (samples : List ℝ)
    (h : ∀ i ∈ modeSearchCandidates sampleRate samples.length,
        ¬(|detectFrequency sampleRate samples i ((3/100 : ℚ) : ℝ) - 1900| < 75
          ∧ (lookupVIS (decodeVIS sampleRate samples i)).isSome)) :
    detectMode sampleRate samples = ROBOT36
      ∧ decodeAudioDetect sampleRate samples = Except.ok ROBOT36 := by
  have hloop : detectModeLoop sampleRate samples = none := by
    rw [detectModeLoop, List.findSome?_eq_none_iff]
    intro i hi
    have hni := h i hi
    by_cases hf : |detectFrequency sampleRate samples i ((3/100 : ℚ) : ℝ) - 1900| < 75
    · rw [if_pos hf]
      rcases hs : lookupVIS (decodeVIS sampleRate samples i) with - | m
      · rfl
      · exact absurd ⟨hf, by rw [hs]; rfl⟩ hni
    · rw [if_neg hf]
  constructor
  · rw [detectMode, hloop]
    rfl
  · rw [decodeAudioDetect, detectedMode, detectMode, hloop]
    rfl

/-- Witness for C4 on the empty sample stream. -/
theorem vis_fallback_robot36_witness :
    detectMode 48000 ([] : List ℝ) = ROBOT36
      ∧ decodeAudioDetect 48000 ([] : List ℝ) = Except.ok ROBOT36 :=
  vis_fallback_robot36 48000 []
    (by intro i hi; simp [modeSearchCandidates] at hi)

/-! ### Chroma scratch buffers stay in the video range -/

theorem chromaSampleValue_range (freq : ℝ) :
    16 ≤ chromaSampleValue freq ∧ chromaSampleValue freq ≤ 240 := by
  unfold chromaSampleValue
  have h16 : (16 : ℤ) ≤ max 16 (min 240
      (jsRound (16 + (freq - 1500) / (2300 - 1500) * (240 - 16)))) :=
    le_max_left _ _
  have h240 : max 16 (min 240
      (jsRound (16 + (freq - 1500) / (2300 - 1500) * (240 - 16)))) ≤ 240 :=
    max_le (by norm_num) (min_le_left _ _)
  omega

theorem chromaWrite_range (width lines : ℕ) (buf : ℕ → ℕ) (idx v : ℕ)
    (hb : ChromaRange buf) (hv : 16 ≤ v ∧ v ≤ 240) :
    ChromaRange (chromaWrite width lines buf idx v) := by
  intro i
  unfold chromaWrite
  split
  · simp only [Function.update_apply]
    split
    · exact hv
    · split
      · exact hv
      · exact hb i
  · simp only [Function.update_apply]
    split
    · exact hv
    · exact hb i

theorem dscStep_range (sampleRate : ℕ) (samples : List ℝ)
    (startPos width lines y : ℕ) (comp : ChromaComp)
    (st : (ℕ → ℕ) × (ℕ → ℕ) × Bool) (x : ℕ)
    (hU : ChromaRange st.1) (hV : ChromaRange st.2.1) :
    ChromaRange ((dscStep sampleRate samples startPos width lines y comp st x).1)
      ∧ ChromaRange ((dscStep sampleRate samples startPos width lines y comp st x).2.1) := by
  cases comp with
  | U =>
      unfold dscStep
      split
      · exact ⟨hU, hV⟩
      · dsimp only
        split
        · exact ⟨hU, hV⟩
        · exact ⟨chromaWrite_range _ _ _ _ _ hU (chromaSampleValue_range _), hV⟩
  | V =>
      unfold dscStep
      split
      · exact ⟨hU, hV⟩
      · dsimp only
        split
        · exact ⟨hU, hV⟩
        · exact ⟨hU, chromaWrite_range _ _ _ _ _ hV (chromaSampleValue_range _)⟩

theorem dscFold_range (sampleRate : ℕ) (samples : List ℝ)
    (startPos width lines y : ℕ) (comp : ChromaComp) (L : List ℕ)
    (st : (ℕ → ℕ) × (ℕ → ℕ) × Bool)
    (hU : ChromaRange st.1) (hV : ChromaRange st.2.1) :
    ChromaRange ((L.foldl (dscStep sampleRate samples startPos width lines y comp) st).1)
      ∧ ChromaRange ((L.foldl (dscStep sampleRate samples startPos width lines y comp) st).2.1) := by
  induction L generalizing st with
  | nil => exact ⟨hU, hV⟩
  | cons a L ih =>
      have hstep := dscStep_range sampleRate samples startPos width lines y comp st a hU hV
      exact ih _ hstep.1 hstep.2

/-- C9: the chroma scratch buffers start at the neutral value 128 everywhere;
decodeScanLineChroma only ever stores values in the video range [16, 240]
into them; and the reads of convertYUVtoRGB substitute 128 for a JS-falsy
entry, so the chroma fed into the inverse conversion is never 0. -/
theorem chroma_neutral_invariant :
    (∀ i, initChroma i = 128)
      ∧ (∀ (sampleRate : ℕ) (samples : List ℝ)
          (startPos width lines y : ℕ) (comp : ChromaComp) (bufU bufV : ℕ → ℕ),
          ChromaRange bufU → ChromaRange bufV →
          ChromaRange ((decodeScanLineChroma sampleRate samples startPos width
              lines y comp bufU bufV).1).1
            ∧ ChromaRange ((decodeScanLineChroma sampleRate samples startPos
                width lines y comp bufU bufV).1).2)
      ∧ (∀ (bufU bufV : ℕ → ℕ) (width lines y x : ℕ),
          ChromaRange bufU → ChromaRange bufV →
          (16 ≤ reassemblyV bufV width y x ∧ reassemblyV bufV width y x ≤ 240
              ∧ reassemblyV bufV width y x ≠ 0)
            ∧ (16 ≤ reassemblyU bufU width lines y x
              ∧ reassemblyU bufU width lines y x ≤ 240
              ∧ reassemblyU bufU width lines y x ≠ 0)) := by
  refine ⟨fun i => rfl, ?_, ?_⟩
  · intro sampleRate samples startPos width lines y comp bufU bufV hU hV
    exact dscFold_range sampleRate samples startPos width lines y comp
      (List.range (width / 2)) (bufU, bufV, false) hU hV
  · intro bufU bufV width lines y x hU hV
    constructor
    · unfold reassemblyV jsOrDefault
      split
      · exact ⟨by norm_num, by norm_num, by norm_num⟩
      · have h := hV (y * width + x)
        exact ⟨h.1, h.2, by omega⟩
    · unfold reassemblyU jsOrDefault
      split
      · exact ⟨by norm_num, by norm_num, by norm_num⟩
      · have h := hU (min (y + 1) (lines - 1) * width + x)
        exact ⟨h.1, h.2, by omega⟩

/-- Witness for C9: a chroma decode on the empty stream starting from the
freshly initialised buffers keeps both buffers inside [16, 240]. -/
theorem chroma_neutral_invariant_witness :
    ChromaRange ((decodeScanLineChroma 48000 [] 0 320 240 0 ChromaComp.U
        initChroma initChroma).1).1
      ∧ ChromaRange ((decodeScanLineChroma 48000 [] 0 320 240 0 ChromaComp.U
          initChroma initChroma).1).2 :=
  chroma_neutral_invariant.2.1 48000 [] 0 320 240 0 ChromaComp.U
    initChroma initChroma (fun i => by norm_num [initChroma])
    (fun i => by norm_num [initChroma])

/-! ### RGB scan-line pixel mapping -/

theorem dslStep_stopped (sampleRate : ℕ) (samples : List ℝ) (startPos : ℕ)
    (scanTime : ℚ) (width y channel : ℕ) (st : (ℕ → ℕ) × Bool) (x : ℕ)
    (h : st.2 = true) :
    dslStep sampleRate samples startPos scanTime width y channel st x = st := by
  unfold dslStep
  rw [if_pos h]

theorem dslStep_write_group (sampleRate : ℕ) (samples : List ℝ)
    (startPos : ℕ) (scanTime : ℚ) (width y channel : ℕ)
    (st : (ℕ → ℕ) × Bool) (x : ℕ) (h : st.2 = false)
    (hpos : startPos + x * samplesPerPixelRGB sampleRate scanTime width
        < samples.length)
    (hwin : startPos + x * samplesPerPixelRGB sampleRate scanTime width
        + 4 * samplesPerPixelRGB sampleRate scanTime width ≤ samples.length) :
    dslStep sampleRate samples startPos scanTime width y channel st x
      = (Function.update (Function.update st.1 ((y * width + x) * 4 + channel)
            (pixelValue (detectFrequencyRange sampleRate samples
              (startPos + x * samplesPerPixelRGB sampleRate scanTime width)
              ((scanTime : ℝ) / (width : ℝ) * 4))))
          ((y * width + x) * 4 + 3) 255, false) := by
  unfold dslStep
  rw [if_neg (by simp [h])]
  dsimp only
  rw [if_neg (not_le.mpr hpos), if_pos hwin]

theorem dslStep_not_stopped (sampleRate : ℕ) (samples : List ℝ)
    (startPos : ℕ) (scanTime : ℚ) (width y channel : ℕ)
    (st : (ℕ → ℕ) × Bool) (x : ℕ) (h : st.2 = false)
    (hpos : startPos + x * samplesPerPixelRGB sampleRate scanTime width
        < samples.length) :
    (dslStep sampleRate samples startPos scanTime width y channel st x).2
      = false := by
  unfold dslStep
  rw [if_neg (by simp [h])]
  dsimp only
  rw [if_neg (not_le.mpr hpos)]

theorem dslStep_preserves (sampleRate : ℕ) (samples : List ℝ)
    (startPos : ℕ) (scanTime : ℚ) (width y channel : ℕ)
    (hch : channel < 4) (st : (ℕ → ℕ) × Bool) (x2 t : ℕ)
    (ht : ∀ c, c < 4 → t ≠ (y * width + x2) * 4 + c) :
    ((dslStep sampleRate samples startPos scanTime width y channel st x2).1) t
      = st.1 t := by
  unfold dslStep
  split
  · rfl
  · dsimp only
    split
    · rfl
    · simp only [Function.update_apply]
      rw [if_neg (ht 3 (by norm_num)), if_neg (ht channel hch)]

theorem dslFold_preserves (sampleRate : ℕ) (samples : List ℝ)
    (startPos : ℕ) (scanTime : ℚ) (width y channel : ℕ)
    (hch : channel < 4) (x t : ℕ)
    (ht : ∃ c0, c0 < 4 ∧ t = (y * width + x) * 4 + c0)
    (L : List ℕ) (hL : ∀ x2 ∈ L, x2 ≠ x) (st : (ℕ → ℕ) × Bool) :
    ((L.foldl (dslStep sampleRate samples startPos scanTime width y channel) st).1) t
      = st.1 t := by
  induction L generalizing st with
  | nil => rfl
  | cons a L ih =>
      rw [List.foldl_cons,
        ih (fun x2 hx2 => hL x2 (List.mem_cons_of_mem a hx2)) _]
      refine dslStep_preserves sampleRate samples startPos scanTime width y
        channel hch st a t ?_
      intro c hc
      obtain ⟨c0, hc0, rfl⟩ := ht
      have hax : a ≠ x := hL a (List.mem_cons_self a L)
      omega

theorem dslFold_not_stopped (sampleRate : ℕ) (samples : List ℝ)
    (startPos : ℕ) (scanTime : ℚ) (width y channel : ℕ) (img : ℕ → ℕ) :
    ∀ x, (∀ j, j < x →
        startPos + j * samplesPerPixelRGB sampleRate scanTime width
          < samples.length) →
      ((List.range x).foldl
        (dslStep sampleRate samples startPos scanTime width y channel)
        (img, false)).2 = false := by
  intro x
  induction x with
  | zero => intro _; rfl
  | succ n ih =>
      intro hall
      rw [List.range_succ, List.foldl_append, List.foldl_cons, List.foldl_nil]
      exact dslStep_not_stopped sampleRate samples startPos scanTime width y
        channel _ n (ih (fun j hj => hall j (by omega))) (hall n (by omega))

/-- C5: in an RGB scan-line decode, every pixel whose 4-pixel analysis window
lies inside the sample stream receives the byte
round (255 (f - 1500) / 800) clamped to [0, 255], where f is the estimated
frequency of its window, written to its selected colour channel, and its
alpha byte is set to 255. -/
theorem rgb_scanline_pixel_write (sampleRate : ℕ) (samples : List ℝ)
    (startPos : ℕ) (scanTime : ℚ) (width y channel : ℕ) (img : ℕ → ℕ) (x : ℕ)
    (hch : channel < 3) (hx : x < width)
    (hpos : startPos + x * samplesPerPixelRGB sampleRate scanTime width
        < samples.length)
    (hwin : startPos + x * samplesPerPixelRGB sampleRate scanTime width
        + 4 * samplesPerPixelRGB sampleRate scanTime width ≤ samples.length) :
    ((decodeScanLine sampleRate samples startPos scanTime width y channel img).1)
        ((y * width + x) * 4 + channel)
      = pixelValue (detectFrequencyRange sampleRate samples
          (startPos + x * samplesPerPixelRGB sampleRate scanTime width)
          ((scanTime : ℝ) / (width : ℝ) * 4))
    ∧ ((decodeScanLine sampleRate samples startPos scanTime width y channel img).1)
        ((y * width + x) * 4 + 3) = 255 := by
  have hmono : ∀ j, j ≤ x →
      startPos + j * samplesPerPixelRGB sampleRate scanTime width
        < samples.length := by
    intro j hj
    have hmul : j * samplesPerPixelRGB sampleRate scanTime width
        ≤ x * samplesPerPixelRGB sampleRate scanTime width :=
      Nat.mul_le_mul_right _ hj
    omega
  have hshow : (decodeScanLine sampleRate samples startPos scanTime width y
        channel img).1
      = ((List.range width).foldl
          (dslStep sampleRate samples startPos scanTime width y channel)
          (img, false)).1 := rfl
  have hsplit : List.range width
      = List.range (x + 1)
        ++ (List.range (width - (x + 1))).map (fun k => (x + 1) + k) := by
    conv_lhs => rw [show width = (x + 1) + (width - (x + 1)) by omega]
    exact List.range_add (x + 1) (width - (x + 1))
  have hA : (List.range (x + 1)).foldl
        (dslStep sampleRate samples startPos scanTime width y channel)
        (img, false)
      = (Function.update (Function.update
            (((List.range x).foldl
              (dslStep sampleRate samples startPos scanTime width y channel)
              (img, false)).1)
            ((y * width + x) * 4 + channel)
            (pixelValue (detectFrequencyRange sampleRate samples
              (startPos + x * samplesPerPixelRGB sampleRate scanTime width)
              ((scanTime : ℝ) / (width : ℝ) * 4))))
          ((y * width + x) * 4 + 3) 255, false) := by
    rw [List.range_succ, List.foldl_append, List.foldl_cons, List.foldl_nil]
    have hns := dslFold_not_stopped sampleRate samples startPos scanTime width
      y channel img x (fun j hj => hmono j (by omega))
    have hst : (List.range x).foldl
        (dslStep sampleRate samples startPos scanTime width y channel)
        (img, false)
      = (((List.range x).foldl
          (dslStep sampleRate samples startPos scanTime width y channel)
          (img, false)).1, false) := by
      exact Prod.ext rfl hns
    rw [hst, dslStep_write_group sampleRate samples startPos scanTime width y
      channel _ x rfl hpos hwin]
  have hpres : ∀ t, (∃ c0, c0 < 4 ∧ t = (y * width + x) * 4 + c0) →
      ((List.range width).foldl
        (dslStep sampleRate samples startPos scanTime width y channel)
        (img, false)).1 t
      = (((List.range (x + 1)).foldl
          (dslStep sampleRate samples startPos scanTime width y channel)
          (img, false)).1) t := by
    intro t ht
    rw [hsplit, List.foldl_append]
    exact dslFold_preserves sampleRate samples startPos scanTime width y
      channel (by omega) x t ht _
      (by
        intro x2 hx2
        simp only [List.mem_map, List.mem_range] at hx2
        obtain ⟨k, -, rfl⟩ := hx2
        omega) _
  constructor
  · rw [hshow, hpres ((y * width + x) * 4 + channel) ⟨channel, by omega, rfl⟩, hA]
    dsimp only
    simp only [Function.update_apply]
    rw [if_neg (show (y * width + x) * 4 + channel
        = (y * width + x) * 4 + 3 → False by omega)]
    simp
  · rw [hshow, hpres ((y * width + x) * 4 + 3) ⟨3, by norm_num, rfl⟩, hA]
    dsimp only
    simp only [Function.update_apply]
    simp

/-- Witness for C5: a one-pixel line over 1920 zero samples at Fs = 48000,
scan time 10 ms (480 samples per pixel, so the 4-pixel window exactly fits). -/
theorem rgb_scanline_pixel_write_witness :
    ((decodeScanLine 48000 (List.replicate 1920 (0 : ℝ)) 0 (1/100) 1 0 0
        (fun _ => 0)).1) ((0 * 1 + 0) * 4 + 0)
      = pixelValue (detectFrequencyRange 48000 (List.replicate 1920 (0 : ℝ))
          (0 + 0 * samplesPerPixelRGB 48000 (1/100) 1)
          (((1/100 : ℚ) : ℝ) / ((1 : ℕ) : ℝ) * 4))
    ∧ ((decodeScanLine 48000 (List.replicate 1920 (0 : ℝ)) 0 (1/100) 1 0 0
        (fun _ => 0)).1) ((0 * 1 + 0) * 4 + 3) = 255 :=
  rgb_scanline_pixel_write 48000 (List.replicate 1920 (0 : ℝ)) 0 (1/100) 1 0 0
    (fun _ => 0) 0 (by norm_num) (by norm_num)
    (by norm_num [samplesPerPixelRGB])
    (by norm_num [samplesPerPixelRGB]; decide)

end Theorems

